import Mathlib

/-!
Verification of the beatmaker step sequencer (src/app/components/beatmaker.tsx).
JavaScript strings are modelled as `List Char`, JS numbers that stay integral as
`Int` (with explicit 32-bit wrapping where the source uses bitwise operators),
and JS real arithmetic as `ℚ`.  `NaN` is modelled by `none` in `Option Int` /
`Option ℚ` where it can arise.
-/

/-! ### JavaScript 32-bit integer primitives -/

/-- ECMAScript ToUint32 on an exact integer. -/
def toUint32 (i : Int) : ℕ := (i % 4294967296).toNat

/-- ECMAScript ToInt32 on an exact integer. -/
def toInt32 (i : Int) : Int :=
  let u := toUint32 i
  if u < 2147483648 then (u : Int) else (u : Int) - 4294967296

/-- JS `a << b` (result as a signed 32-bit integer). -/
def jsShl (a b : Int) : Int := toInt32 ((toUint32 a * 2 ^ (toUint32 b % 32) : ℕ) : Int)

/-- JS `a >> b`, the sign-propagating (arithmetic) right shift. -/
def jsShrA (a b : Int) : Int := Int.fdiv (toInt32 a) ((2 : Int) ^ (toUint32 b % 32))

/-- JS `a | b`. -/
def jsOr (a b : Int) : Int := toInt32 ((toUint32 a ||| toUint32 b : ℕ) : Int)

/-- JS `a & b`. -/
def jsAnd (a b : Int) : Int := toInt32 ((toUint32 a &&& toUint32 b : ℕ) : Int)

/-! ### Digits, base-36 strings, parseInt -/

/-- The digit characters used by `Number.prototype.toString(36)` (lowercase). -/
def digitChar36 (d : ℕ) : Char := if d < 10 then Char.ofNat (48 + d) else Char.ofNat (87 + d)

/-- Value of a character as a digit (0-9, a-z, A-Z), as accepted by `parseInt`. -/
def charDigitVal (c : Char) : Option ℕ :=
  if 48 ≤ c.toNat ∧ c.toNat ≤ 57 then some (c.toNat - 48)
  else if 97 ≤ c.toNat ∧ c.toNat ≤ 122 then some (c.toNat - 87)
  else if 65 ≤ c.toNat ∧ c.toNat ≤ 90 then some (c.toNat - 55)
  else none

def isDigitIn (radix : ℕ) (c : Char) : Bool :=
  match charDigitVal c with
  | some d => d < radix
  | none => false

def digitVal (c : Char) : ℕ := (charDigitVal c).getD 0

/-- Digits of `n` in base `b`, least significant first, with explicit fuel so the
kernel can evaluate it. -/
def natDigitsLE (b : ℕ) : ℕ → ℕ → List ℕ
  | 0, _ => []
  | fuel + 1, n => if n = 0 then [] else n % b :: natDigitsLE b fuel (n / b)

/-- Model of `Number.prototype.toString(b)` on a nonnegative integral value. -/
def natToBase (b n : ℕ) : List Char :=
  if n = 0 then ['0'] else (natDigitsLE b n n).reverse.map digitChar36

/-- Model of `Number.prototype.toString(b)` on an integral value (negatives print a
leading minus sign). -/
def jsNumToStr (b : ℕ) (i : Int) : List Char :=
  if i < 0 then '-' :: natToBase b i.natAbs else natToBase b i.toNat

/-- Model of `String.prototype.split` on a single-character separator. -/
def splitOn (sep : Char) : List Char → List (List Char)
  | [] => [[]]
  | c :: cs =>
    if c = sep then [] :: splitOn sep cs
    else
      match splitOn sep cs with
      | [] => [[c]]
      | r :: rs => (c :: r) :: rs

/-- Model of `Array.prototype.join` with a separator string. -/
def jsJoin (sep : List Char) : List (List Char) → List Char
  | [] => []
  | [x] => x
  | x :: xs => x ++ sep ++ jsJoin sep xs

def isJsWs (c : Char) : Bool := c = ' ' || c = '\t' || c = '\n' || c = '\r'

def splitSign : List Char → Int × List Char
  | '-' :: r => (-1, r)
  | '+' :: r => (1, r)
  | s => (1, s)

def stripHex : List Char → List Char
  | '0' :: 'x' :: r => r
  | '0' :: 'X' :: r => r
  | s => s

/-- ECMAScript `parseInt(s, radix)` for an explicit radix; `none` models `NaN`. -/
def jsParseInt (radix : ℕ) (s : List Char) : Option Int :=
  let t := s.dropWhile isJsWs
  let p := splitSign t
  let t2 := if radix = 16 then stripHex p.2 else p.2
  let ds := t2.takeWhile (isDigitIn radix)
  if ds = [] then none
  else some (p.1 * ((ds.foldl (fun a c => a * radix + digitVal c) 0 : ℕ) : Int))

/-! ### The pattern codec (`encodePattern` / `decodePattern`) -/

/-- The `bits |= (1 << i)` accumulation loop of `encodePattern`. -/
def rowBitsAux : ℕ → Int → List Bool → Int
  | _, bits, [] => bits
  | i, bits, b :: bs => rowBitsAux (i + 1) (if b then jsOr bits (jsShl 1 (i : Int)) else bits) bs

def rowBits (row : List Bool) : Int := rowBitsAux 0 0 row

/-- The function `encodePattern(selected, tempo)`: base-36 row bitmasks joined with `.`,
then `,tempo`. -/
def encodePattern (selected : List (List Bool)) (tempo : Int) : List Char :=
  jsJoin ['.'] (selected.map (fun row => jsNumToStr 36 (rowBits row))) ++ ',' :: jsNumToStr 10 tempo

/-- One row of `decodePattern`: `((bits >> i) & 1) === 1` for each step index,
where `ToInt32(NaN) = 0`. -/
def decodeRow (numSteps : ℕ) (bits : Option Int) : List Bool :=
  (List.range numSteps).map (fun (i : ℕ) =>
    if jsAnd (jsShrA (bits.getD 0) ((i : ℕ) : Int)) 1 = 1 then true else false)

/-- Model of `Math.min(a, x)` with NaN propagation. -/
def jsMinNum (a : Int) (x : Option Int) : Option Int :=
  match x with
  | none => none
  | some v => some (min a v)

/-- Model of `Math.max(a, x)` with NaN propagation. -/
def jsMaxNum (a : Int) (x : Option Int) : Option Int :=
  match x with
  | none => none
  | some v => some (max a v)

/-- The function `decodePattern(str, numSteps, sampleCount)`.  The decoded tempo is an
`Option Int`, `none` standing for JavaScript's `NaN`. -/
def decodePattern (str : List Char) (numSteps sampleCount : ℕ) :
    Option (List (List Bool) × Option Int) :=
  let parts := splitOn ',' str
  let rowsStr := parts.getD 0 []
  match parts.get? 1 with
  | none => none
  | some tempoStr =>
    if rowsStr = [] then none
    else if tempoStr = [] then none
    else
      let rows := splitOn '.' rowsStr
      if rows.length ≠ sampleCount then none
      else
        some (rows.map (fun rowStr => decodeRow numSteps (jsParseInt 36 rowStr)),
              jsMaxNum 60 (jsMinNum 240 (jsParseInt 10 tempoStr)))

/-! ### Bitmask facts -/

/-- Reference bitmask of a row: bit `k + j` is row cell `j`. -/
def maskAux : ℕ → List Bool → ℕ
  | _, [] => 0
  | k, b :: bs => (if b then 2 ^ k else 0) ||| maskAux (k + 1) bs

lemma maskAux_lt : ∀ (bs : List Bool) (k : ℕ), maskAux k bs < 2 ^ (k + bs.length) := by
  intro bs
  induction bs with
  | nil => intro k; simp [maskAux]
  | cons b bs ih =>
    intro k
    have hpow : (2 : ℕ) ^ k < 2 ^ (k + (b :: bs).length) :=
      Nat.pow_lt_pow_right (by norm_num) (by simp)
    have h1 : (if b then 2 ^ k else 0) < 2 ^ (k + (b :: bs).length) := by
      cases b
      · simpa using pow_pos (show (0:ℕ) < 2 by norm_num) (k + (b :: bs).length)
      · simpa using hpow
    have h2 : maskAux (k + 1) bs < 2 ^ (k + (b :: bs).length) := by
      have := ih (k + 1)
      have heq : k + 1 + bs.length = k + (b :: bs).length := by simp; omega
      rwa [heq] at this
    exact Nat.or_lt_two_pow h1 h2

lemma maskAux_testBit_lt : ∀ (bs : List Bool) (k i : ℕ), i < k →
    Nat.testBit (maskAux k bs) i = false := by
  intro bs
  induction bs with
  | nil => intro k i _; simp [maskAux]
  | cons b bs ih =>
    intro k i hik
    simp only [maskAux, Nat.testBit_lor]
    rw [ih (k + 1) i (by omega)]
    cases b
    · simp
    · simp only [if_true]
      rw [Nat.testBit_two_pow]
      simp; omega

lemma maskAux_testBit : ∀ (bs : List Bool) (k i : ℕ),
    Nat.testBit (maskAux k bs) (k + i) = bs.getD i false := by
  intro bs
  induction bs with
  | nil => intro k i; simp [maskAux]
  | cons b bs ih =>
    intro k i
    simp only [maskAux, Nat.testBit_lor]
    cases i with
    | zero =>
      rw [maskAux_testBit_lt bs (k + 1) (k + 0) (by omega)]
      cases b
      · simp
      · simp [Nat.testBit_two_pow]
    | succ j =>
      have h1 : Nat.testBit (if b then 2 ^ k else 0) (k + (j + 1)) = false := by
        cases b
        · simp
        · simp only [if_true]
          rw [Nat.testBit_two_pow]
          simp
      have h2 : k + (j + 1) = (k + 1) + j := by omega
      rw [h1, h2, ih (k + 1) j]
      simp

/-! ### ToUint32 / ToInt32 facts -/

lemma toUint32_coe (u : ℕ) (h : u < 4294967296) : toUint32 (u : Int) = u := by
  unfold toUint32; omega

lemma toUint32_toInt32_nat (u : ℕ) (h : u < 4294967296) :
    toUint32 (toInt32 (u : Int)) = u := by
  simp only [toInt32, toUint32]
  split <;> omega

lemma toInt32_congr {x y : Int} (h : toUint32 x = toUint32 y) : toInt32 x = toInt32 y := by
  simp only [toInt32, h]

lemma toInt32_small (u : ℕ) (h : u < 2147483648) : toInt32 (u : Int) = (u : Int) := by
  simp only [toInt32, toUint32]
  split <;> omega

lemma jsShl_one (k : ℕ) (hk : k < 32) : jsShl 1 (k : Int) = toInt32 ((2 ^ k : ℕ) : Int) := by
  unfold jsShl
  have h1 : toUint32 (1 : Int) = 1 := rfl
  rw [h1, toUint32_coe k (by omega), Nat.mod_eq_of_lt hk, one_mul]

lemma jsOr_nat (x y : ℕ) (hx : x < 4294967296) (hy : y < 4294967296) :
    jsOr (toInt32 (x : Int)) (toInt32 (y : Int)) = toInt32 ((x ||| y : ℕ) : Int) := by
  unfold jsOr
  rw [toUint32_toInt32_nat x hx, toUint32_toInt32_nat y hy]

lemma rowBitsAux_cons_true (k : ℕ) (bits : Int) (bs : List Bool) :
    rowBitsAux k bits (true :: bs) = rowBitsAux (k + 1) (jsOr bits (jsShl 1 (k : Int))) bs := rfl

lemma rowBitsAux_cons_false (k : ℕ) (bits : Int) (bs : List Bool) :
    rowBitsAux k bits (false :: bs) = rowBitsAux (k + 1) bits bs := rfl

lemma rowBitsAux_eq : ∀ (bs : List Bool) (k acc : ℕ), acc < 4294967296 → k + bs.length ≤ 32 →
    rowBitsAux k (toInt32 (acc : Int)) bs = toInt32 ((acc ||| maskAux k bs : ℕ) : Int) := by
  intro bs
  induction bs with
  | nil => intro k acc _ _; simp [rowBitsAux, maskAux]
  | cons b bs ih =>
    intro k acc hacc hk
    have hk32 : k < 32 := by simp at hk; omega
    have hk' : (k + 1) + bs.length ≤ 32 := by simp at hk; omega
    cases b
    case false =>
      rw [rowBitsAux_cons_false, ih (k + 1) acc hacc hk']
      simp [maskAux]
    case true =>
      rw [rowBitsAux_cons_true]
      have hp : (2 : ℕ) ^ k < 4294967296 := by
        calc (2:ℕ) ^ k < 2 ^ 32 := Nat.pow_lt_pow_right (by norm_num) hk32
        _ = 4294967296 := by norm_num
      rw [jsShl_one k hk32, jsOr_nat acc (2 ^ k) hacc hp]
      have hor : acc ||| 2 ^ k < 4294967296 := by
        have := Nat.or_lt_two_pow (n := 32) (by omega : acc < 2 ^ 32) (by omega : 2 ^ k < 2 ^ 32)
        omega
      rw [ih (k + 1) (acc ||| 2 ^ k) hor hk']
      simp [maskAux, Nat.lor_assoc]

lemma rowBits_eq (row : List Bool) (h : row.length ≤ 32) :
    rowBits row = toInt32 ((maskAux 0 row : ℕ) : Int) := by
  have h0 : (0 : Int) = toInt32 ((0 : ℕ) : Int) := rfl
  unfold rowBits
  rw [h0, rowBitsAux_eq row 0 0 (by norm_num) (by simpa)]
  simp

/-- Extracting bit `i` with `(ToInt32(v) >> i) & 1` recovers bit `i` of the
unsigned 32-bit representation. -/
lemma extractBit (u i : ℕ) (hu : u < 4294967296) (hi : i < 32) :
    jsAnd (jsShrA (toInt32 (u : Int)) ((i : ℕ) : Int)) 1 =
      if Nat.testBit u i then 1 else 0 := by
  have hsh : toUint32 ((i : ℕ) : Int) % 32 = i := by
    rw [toUint32_coe i (by omega)]; omega
  have harg : toInt32 (toInt32 (u : Int)) = toInt32 (u : Int) :=
    toInt32_congr (by rw [toUint32_toInt32_nat u hu, toUint32_coe u hu])
  simp only [jsShrA, hsh, harg]
  rw [Int.fdiv_eq_ediv _ (by positivity)]
  simp only [jsAnd]
  have h1 : toUint32 (1 : Int) = 1 := rfl
  rw [h1, Nat.and_one_is_mod]
  set x : Int := toInt32 (u : Int) / (2 : Int) ^ i with hxdef
  rw [toInt32_small (toUint32 x % 2) (by omega)]
  have hb : Nat.testBit u i = decide (u / 2 ^ i % 2 = 1) := Nat.testBit_to_div_mod
  have hx32 : toInt32 (u : Int) =
      if u < 2147483648 then (u : Int) else (u : Int) - 4294967296 := by
    simp only [toInt32, toUint32_coe u hu]
  have hpar : x % 2 = ((u / 2 ^ i : ℕ) : Int) % 2 := by
    rcases lt_or_ge u 2147483648 with hsm | hlg
    · rw [hxdef, hx32, if_pos hsm]
      congr 1
      rw [show ((2 : Int) ^ i) = ((2 ^ i : ℕ) : Int) by push_cast; ring, ← Int.ofNat_ediv]
    · rw [hxdef, hx32, if_neg (by omega)]
      have hfac : (4294967296 : Int) = 2 ^ (32 - i) * 2 ^ i := by
        rw [← pow_add, show 32 - i + i = 32 by omega]
        norm_num
      have hsplit : ((u : Int) - 4294967296) = (u : Int) + (-(2 ^ (32 - i))) * 2 ^ i := by
        rw [hfac]; ring
      rw [hsplit, Int.add_mul_ediv_right _ _ (by positivity)]
      have hdiv : (u : Int) / (2 : Int) ^ i = ((u / 2 ^ i : ℕ) : Int) := by
        rw [show ((2 : Int) ^ i) = ((2 ^ i : ℕ) : Int) by push_cast; ring, ← Int.ofNat_ediv]
      rw [hdiv]
      have heven : ((2 : Int) ^ (32 - i)) % 2 = 0 := by
        have : (32 - i) = (31 - i) + 1 := by omega
        rw [this, pow_succ]
        omega
      omega
  have hfin : toUint32 x % 2 = u / 2 ^ i % 2 := by
    have hx4 : toUint32 x = (x % 4294967296).toNat := rfl
    have hmod : (x % 4294967296) % 2 = x % 2 := Int.emod_emod_of_dvd x (by norm_num)
    omega
  rw [hfin, hb]
  rcases Nat.lt_or_ge (u / 2 ^ i % 2) 1 with hc | hc
  · have : u / 2 ^ i % 2 = 0 := by omega
    simp [this]
  · have : u / 2 ^ i % 2 = 1 := by omega
    simp [this]

/-! ### Digit string facts -/

/-- Value of a least-significant-first digit list. -/
def ofDigitsLE (b : ℕ) : List ℕ → ℕ
  | [] => 0
  | d :: ds => d + b * ofDigitsLE b ds

lemma natDigitsLE_val (b : ℕ) (hb : 2 ≤ b) :
    ∀ (fuel n : ℕ), n ≤ fuel → ofDigitsLE b (natDigitsLE b fuel n) = n := by
  intro fuel
  induction fuel with
  | zero => intro n hn; interval_cases n; simp [natDigitsLE, ofDigitsLE]
  | succ fuel ih =>
    intro n hn
    by_cases h0 : n = 0
    · simp [natDigitsLE, h0, ofDigitsLE]
    · have hdiv : n / b ≤ fuel := by
        have : n / b < n := Nat.div_lt_self (by omega) (by omega)
        omega
      simp only [natDigitsLE, if_neg h0, ofDigitsLE]
      rw [ih (n / b) hdiv]
      exact Nat.mod_add_div n b

lemma natDigitsLE_lt (b : ℕ) (hb : 2 ≤ b) :
    ∀ (fuel n d : ℕ), d ∈ natDigitsLE b fuel n → d < b := by
  intro fuel
  induction fuel with
  | zero => intro n d hd; simp [natDigitsLE] at hd
  | succ fuel ih =>
    intro n d hd
    by_cases h0 : n = 0
    · simp [natDigitsLE, h0] at hd
    · simp only [natDigitsLE, if_neg h0, List.mem_cons] at hd
      rcases hd with h | h
      · subst h; exact Nat.mod_lt n (by omega)
      · exact ih (n / b) d h

lemma natDigitsLE_ne_nil (b : ℕ) : ∀ (fuel n : ℕ), 1 ≤ n → n ≤ fuel →
    natDigitsLE b fuel n ≠ [] := by
  intro fuel n h1 h2
  cases fuel with
  | zero => omega
  | succ fuel =>
    simp only [natDigitsLE, if_neg (by omega : ¬ n = 0)]
    simp

lemma foldl_msb (b : ℕ) : ∀ (L : List ℕ) (a : ℕ),
    L.reverse.foldl (fun x d => x * b + d) a = a * b ^ L.length + ofDigitsLE b L := by
  intro L
  induction L with
  | nil => intro a; simp [ofDigitsLE]
  | cons d ds ih =>
    intro a
    simp only [List.reverse_cons, List.foldl_append, List.foldl_cons, List.foldl_nil, ih,
      ofDigitsLE, List.length_cons]
    ring

/-! ### Facts about the digit characters, provable by evaluation -/

lemma digitVal_digitChar : ∀ d, d < 36 → digitVal (digitChar36 d) = d := by decide

lemma isDigitIn36_digitChar : ∀ d, d < 36 → isDigitIn 36 (digitChar36 d) = true := by decide

lemma isDigitIn10_digitChar : ∀ d, d < 10 → isDigitIn 10 (digitChar36 d) = true := by decide

lemma digitChar_not_ws : ∀ d, d < 36 → isJsWs (digitChar36 d) = false := by decide

lemma digitChar_ne_signs : ∀ d, d < 36 → digitChar36 d ≠ '-' ∧ digitChar36 d ≠ '+' := by decide

lemma digitChar_ne_seps : ∀ d, d < 36 → digitChar36 d ≠ '.' ∧ digitChar36 d ≠ ',' := by decide

lemma splitSign_no (c : Char) (r : List Char) (h1 : c ≠ '-') (h2 : c ≠ '+') :
    splitSign (c :: r) = (1, c :: r) := by
  unfold splitSign
  split
  · next heq => injection heq with hc _; exact absurd hc h1
  · next heq => injection heq with hc _; exact absurd hc h2
  · rfl

lemma natToBase_chars (b n : ℕ) (hb : 2 ≤ b) (c : Char) (hc : c ∈ natToBase b n) :
    ∃ d, d < b ∧ c = digitChar36 d := by
  unfold natToBase at hc
  by_cases h0 : n = 0
  · rw [if_pos h0] at hc
    simp at hc
    exact ⟨0, by omega, by rw [hc]; decide⟩
  · rw [if_neg h0] at hc
    simp only [List.mem_map, List.mem_reverse] at hc
    obtain ⟨d, hd, rfl⟩ := hc
    exact ⟨d, natDigitsLE_lt b hb n n d hd, rfl⟩

lemma natToBase_ne_nil (b n : ℕ) : natToBase b n ≠ [] := by
  unfold natToBase
  by_cases h0 : n = 0
  · simp [h0]
  · rw [if_neg h0]
    intro h
    rw [List.map_eq_nil_iff, List.reverse_eq_nil_iff] at h
    exact natDigitsLE_ne_nil b n n (by omega) le_rfl h

lemma takeWhile_natToBase (b n : ℕ) (hb : 2 ≤ b) (hb36 : b ≤ 36)
    (hvalid : ∀ d, d < b → isDigitIn b (digitChar36 d) = true) :
    (natToBase b n).takeWhile (isDigitIn b) = natToBase b n := by
  rw [List.takeWhile_eq_self_iff]
  intro c hc
  obtain ⟨d, hd, rfl⟩ := natToBase_chars b n hb c hc
  exact hvalid d hd

lemma foldl_natToBase (b n : ℕ) (hb : 2 ≤ b) (hb36 : b ≤ 36) :
    (natToBase b n).foldl (fun a c => a * b + digitVal c) 0 = n := by
  unfold natToBase
  by_cases h0 : n = 0
  · rw [if_pos h0]
    subst h0
    simp only [List.foldl_cons, List.foldl_nil, Nat.zero_mul, Nat.zero_add]
    decide
  · rw [if_neg h0]
    rw [List.foldl_map]
    rw [List.foldl_ext (fun (x : ℕ) (d : ℕ) => x * b + digitVal (digitChar36 d))
        (fun (x : ℕ) (d : ℕ) => x * b + d) 0 ?hext]
    case hext =>
      intro a d hd
      rw [List.mem_reverse] at hd
      have : d < b := natDigitsLE_lt b hb n n d hd
      show a * b + digitVal (digitChar36 d) = a * b + d
      rw [digitVal_digitChar d (by omega)]
    rw [foldl_msb b (natDigitsLE b n n) 0]
    rw [natDigitsLE_val b hb n n le_rfl]
    simp

lemma jsParseInt_natToBase (b n : ℕ) (hb : 2 ≤ b) (hb36 : b ≤ 36) (hb16 : b ≠ 16)
    (hvalid : ∀ d, d < b → isDigitIn b (digitChar36 d) = true) :
    jsParseInt b (natToBase b n) = some ((n : ℕ) : Int) := by
  obtain ⟨c, cs, hcons⟩ : ∃ c cs, natToBase b n = c :: cs := by
    cases h : natToBase b n with
    | nil => exact absurd h (natToBase_ne_nil b n)
    | cons c cs => exact ⟨c, cs, rfl⟩
  obtain ⟨d, hd, rfl⟩ := natToBase_chars b n hb c (by rw [hcons]; simp)
  simp only [jsParseInt]
  rw [hcons, List.dropWhile_cons_of_neg (by rw [digitChar_not_ws d (by omega)]; simp),
    splitSign_no _ _ (digitChar_ne_signs d (by omega)).1 (digitChar_ne_signs d (by omega)).2]
  simp only [if_neg hb16, ← hcons]
  rw [takeWhile_natToBase b n hb hb36 hvalid, if_neg (natToBase_ne_nil b n),
    foldl_natToBase b n hb hb36]
  simp

lemma jsParseInt_neg_natToBase (b n : ℕ) (hb : 2 ≤ b) (hb36 : b ≤ 36) (hb16 : b ≠ 16)
    (hvalid : ∀ d, d < b → isDigitIn b (digitChar36 d) = true) :
    jsParseInt b ('-' :: natToBase b n) = some (-((n : ℕ) : Int)) := by
  simp only [jsParseInt]
  rw [List.dropWhile_cons_of_neg (by decide)]
  have hsgn : splitSign ('-' :: natToBase b n) = (-1, natToBase b n) := rfl
  rw [hsgn]
  simp only [if_neg hb16]
  rw [takeWhile_natToBase b n hb hb36 hvalid, if_neg (natToBase_ne_nil b n),
    foldl_natToBase b n hb hb36]
  simp

lemma jsParseInt_jsNumToStr (b : ℕ) (hb : 2 ≤ b) (hb36 : b ≤ 36) (hb16 : b ≠ 16)
    (hvalid : ∀ d, d < b → isDigitIn b (digitChar36 d) = true) (v : Int) :
    jsParseInt b (jsNumToStr b v) = some v := by
  unfold jsNumToStr
  by_cases hneg : v < 0
  · rw [if_pos hneg, jsParseInt_neg_natToBase b _ hb hb36 hb16 hvalid]
    have hv : -((v.natAbs : ℕ) : Int) = v := by omega
    rw [hv]
  · rw [if_neg hneg, jsParseInt_natToBase b _ hb hb36 hb16 hvalid]
    have hv : ((v.toNat : ℕ) : Int) = v := by omega
    rw [hv]

lemma jsNumToStr_no_seps (b : ℕ) (hb : 2 ≤ b) (hb36 : b ≤ 36) (v : Int) :
    ∀ c ∈ jsNumToStr b v, c ≠ '.' ∧ c ≠ ',' := by
  intro c hc
  unfold jsNumToStr at hc
  split at hc
  · rcases List.mem_cons.mp hc with rfl | hc'
    · exact ⟨by decide, by decide⟩
    · obtain ⟨d, hd, rfl⟩ := natToBase_chars b _ hb c hc'
      exact digitChar_ne_seps d (by omega)
  · obtain ⟨d, hd, rfl⟩ := natToBase_chars b _ hb c hc
    exact digitChar_ne_seps d (by omega)

lemma jsNumToStr_ne_nil (b : ℕ) (v : Int) : jsNumToStr b v ≠ [] := by
  unfold jsNumToStr
  split
  · simp
  · exact natToBase_ne_nil b _

/-! ### Split / join facts -/

lemma splitOn_not_mem (sep : Char) : ∀ (l : List Char), sep ∉ l → splitOn sep l = [l] := by
  intro l
  induction l with
  | nil => intro _; rfl
  | cons c cs ih =>
    intro h
    have hc : ¬ (c = sep) := fun hcs => h (by simp [hcs])
    have hrec := ih (fun hm => h (by simp [hm]))
    simp only [splitOn, if_neg hc, hrec]

lemma splitOn_append (sep : Char) : ∀ (a b : List Char), sep ∉ a →
    splitOn sep (a ++ sep :: b) = a :: splitOn sep b := by
  intro a
  induction a with
  | nil => intro b _; simp [splitOn]
  | cons c cs ih =>
    intro b h
    have hc : ¬ (c = sep) := fun hcs => h (by simp [hcs])
    have hrec := ih b (fun hm => h (by simp [hm]))
    simp only [List.cons_append, splitOn, if_neg hc, List.append_eq, hrec]

lemma splitOn_jsJoin (sep : Char) : ∀ (rows : List (List Char)), rows ≠ [] →
    (∀ r ∈ rows, sep ∉ r) → splitOn sep (jsJoin [sep] rows) = rows := by
  intro rows
  induction rows with
  | nil => intro h; exact absurd rfl h
  | cons r rest ih =>
    intro _ hmem
    cases rest with
    | nil =>
      simp only [jsJoin]
      exact splitOn_not_mem sep r (hmem r (by simp))
    | cons r2 rest2 =>
      have hjoin : jsJoin [sep] (r :: r2 :: rest2) = r ++ sep :: jsJoin [sep] (r2 :: rest2) := by
        simp [jsJoin]
      rw [hjoin, splitOn_append sep r _ (hmem r (by simp)),
        ih (by simp) (fun x hx => hmem x (by simp [hx]))]

lemma not_mem_jsJoin (x sep : Char) (hx : x ≠ sep) : ∀ (rows : List (List Char)),
    (∀ r ∈ rows, x ∉ r) → x ∉ jsJoin [sep] rows := by
  intro rows
  induction rows with
  | nil => intro _; simp [jsJoin]
  | cons r rest ih =>
    intro hmem
    cases rest with
    | nil => exact hmem r (by simp)
    | cons r2 rest2 =>
      have hjoin : jsJoin [sep] (r :: r2 :: rest2) = r ++ sep :: jsJoin [sep] (r2 :: rest2) := by
        simp [jsJoin]
      rw [hjoin]
      intro hm
      rcases List.mem_append.mp hm with hm1 | hm2
      · exact hmem r (by simp) hm1
      · rcases List.mem_cons.mp hm2 with rfl | hm3
        · exact hx rfl
        · exact ih (fun y hy => hmem y (by simp [hy])) hm3

lemma jsJoin_ne_nil (sep : List Char) : ∀ (rows : List (List Char)), rows ≠ [] →
    (∀ r ∈ rows, r ≠ []) → jsJoin sep rows ≠ [] := by
  intro rows
  cases rows with
  | nil => intro h; exact absurd rfl h
  | cons r rest =>
    intro _ hmem
    cases rest with
    | nil => exact hmem r (by simp)
    | cons r2 rest2 =>
      have hjoin : jsJoin sep (r :: r2 :: rest2) = r ++ sep ++ jsJoin sep (r2 :: rest2) := rfl
      rw [hjoin]
      intro h
      rcases List.append_eq_nil.mp h with ⟨h1, _⟩
      rcases List.append_eq_nil.mp h1 with ⟨h2, _⟩
      exact hmem r (by simp) h2

/-! ### Round trip of one row -/

lemma decodeRow_parse (row : List Bool) (hlen : row.length = 32) :
    decodeRow 32 (jsParseInt 36 (jsNumToStr 36 (rowBits row))) = row := by
  have hparse : jsParseInt 36 (jsNumToStr 36 (rowBits row)) = some (rowBits row) :=
    jsParseInt_jsNumToStr 36 (by norm_num) (by norm_num) (by norm_num) isDigitIn36_digitChar _
  rw [hparse]
  have hmask : rowBits row = toInt32 ((maskAux 0 row : ℕ) : Int) := rowBits_eq row (by omega)
  have hmlt : maskAux 0 row < 4294967296 := by
    have h := maskAux_lt row 0
    rw [Nat.zero_add, hlen] at h
    omega
  unfold decodeRow
  simp only [Option.getD_some]
  apply List.ext_getElem
  · simp [hlen]
  · intro i h1 h2
    simp only [List.getElem_map, List.getElem_range]
    have h32 : i < 32 := by simpa using h1
    rw [hmask, extractBit (maskAux 0 row) i hmlt h32]
    have htb : Nat.testBit (maskAux 0 row) i = row.getD i false := by
      simpa using maskAux_testBit row 0 i
    have hgd : row.getD i false = row[i] := List.getD_eq_getElem row false (by omega)
    rw [htb, hgd]
    cases hc : row[i]
    · decide
    · decide

/-- C1 (amended): for every nonempty rectangular grid of rows × 32 steps and
every integer tempo in [60, 240], decoding the encoded token with matching
`sampleCount` returns exactly the grid and the tempo.  This covers grids in
which step index 31 is selected, where the bitmask is negative and encodes as
a base-36 string with a leading minus sign. -/
theorem c1_roundtrip (g : List (List Bool)) (t : Int) (sampleCount : ℕ)
    (hsc : sampleCount = g.length) (hg : 1 ≤ g.length)
    (hrows : ∀ row ∈ g, row.length = 32) (ht1 : 60 ≤ t) (ht2 : t ≤ 240) :
    decodePattern (encodePattern g t) 32 sampleCount = some (g, some t) := by
  have hrsdef : encodePattern g t =
      jsJoin ['.'] (g.map (fun row => jsNumToStr 36 (rowBits row))) ++ ',' ::
        jsNumToStr 10 t := rfl
  set rowStrs : List (List Char) := g.map (fun row => jsNumToStr 36 (rowBits row)) with hrs
  set A : List Char := jsJoin ['.'] rowStrs with hA
  set B : List Char := jsNumToStr 10 t with hB
  have hmemA : ∀ r ∈ rowStrs, ',' ∉ r := by
    intro r hr hcomma
    rw [hrs] at hr
    obtain ⟨row, _, rfl⟩ := List.mem_map.mp hr
    exact (jsNumToStr_no_seps 36 (by norm_num) (by norm_num) _ ',' hcomma).2 rfl
  have hmemA' : ∀ r ∈ rowStrs, '.' ∉ r := by
    intro r hr hdot
    rw [hrs] at hr
    obtain ⟨row, _, rfl⟩ := List.mem_map.mp hr
    exact (jsNumToStr_no_seps 36 (by norm_num) (by norm_num) _ '.' hdot).1 rfl
  have hAcomma : ',' ∉ A := not_mem_jsJoin ',' '.' (by decide) rowStrs hmemA
  have hBcomma : ',' ∉ B := by
    intro hcomma
    exact (jsNumToStr_no_seps 10 (by norm_num) (by norm_num) t ',' hcomma).2 rfl
  have hsplit : splitOn ',' (A ++ ',' :: B) = [A, B] := by
    rw [splitOn_append ',' A B hAcomma, splitOn_not_mem ',' B hBcomma]
  have hrsne : rowStrs ≠ [] := by
    rw [hrs]
    simp only [ne_eq, List.map_eq_nil_iff]
    intro h
    rw [h] at hg
    simp at hg
  have hAne : A ≠ [] :=
    jsJoin_ne_nil ['.'] rowStrs hrsne (fun r hr => by
      rw [hrs] at hr
      obtain ⟨row, _, rfl⟩ := List.mem_map.mp hr
      exact jsNumToStr_ne_nil 36 _)
  have hBne : B ≠ [] := jsNumToStr_ne_nil 10 t
  have hsplitdot : splitOn '.' A = rowStrs := splitOn_jsJoin '.' rowStrs hrsne hmemA'
  have hrslen : rowStrs.length = sampleCount := by rw [hrs, hsc]; simp
  have htempo : jsParseInt 10 B = some t :=
    jsParseInt_jsNumToStr 10 (by norm_num) (by norm_num) (by norm_num)
      (fun d hd => isDigitIn10_digitChar d hd) t
  have hmap : rowStrs.map (fun rowStr => decodeRow 32 (jsParseInt 36 rowStr)) = g := by
    rw [hrs, List.map_map]
    have : ∀ row ∈ g, decodeRow 32 (jsParseInt 36 (jsNumToStr 36 (rowBits row))) = row :=
      fun row hrow => decodeRow_parse row (hrows row hrow)
    calc g.map ((fun rowStr => decodeRow 32 (jsParseInt 36 rowStr)) ∘
          fun row => jsNumToStr 36 (rowBits row))
        = g.map (fun row => row) := List.map_congr_left (fun row hrow => this row hrow)
      _ = g := by simp
  rw [hrsdef]
  simp only [decodePattern, hsplit]
  simp only [List.get?_cons_succ, List.get?_cons_zero, List.getD_cons_zero]
  rw [if_neg hAne, if_neg hBne, hsplitdot]
  have hcond : ¬ (rowStrs.length ≠ sampleCount) := by
    rw [hrslen]
    exact fun h => h rfl
  rw [if_neg hcond, hmap, htempo]
  simp only [jsMinNum, jsMaxNum]
  rw [min_eq_right ht2, max_eq_right ht1]

/-- C1 (counterexample): the round trip fails for the 0-row grid.  Encoding the
empty grid gives the token `",120"`, whose first comma-component is empty, so
`decodePattern` returns the failure sentinel instead of the grid. -/
theorem c1_counterexample :
    encodePattern ([] : List (List Bool)) 120 = ",120".toList ∧
    decodePattern (encodePattern ([] : List (List Bool)) 120) 32 0 = none := by
  constructor
  · rfl
  · rfl

/-- Witness for `c1_roundtrip` at a concrete one-row grid whose only selected
step is index 31 (the negative-bitmask case). -/
theorem c1_roundtrip_witness :
    (∀ row ∈ [List.replicate 31 false ++ [true]], row.length = 32) ∧
    decodePattern (encodePattern [List.replicate 31 false ++ [true]] 120) 32 1 =
      some ([List.replicate 31 false ++ [true]], some 120) :=
  ⟨by decide, c1_roundtrip [List.replicate 31 false ++ [true]] 120 1 rfl (by decide)
    (by decide) (by decide) (by decide)⟩

/-- C2 (counterexample): a token whose tempo segment is non-numeric is NOT
rejected: `decodePattern` returns a grid together with a NaN tempo, not the
failure sentinel.  (Similarly a non-base-36 row segment would come back as an
all-false row rather than a failure.) -/
theorem c2_counterexample :
    decodePattern ("0.0.0.0.0.0.0.0,zz".toList) 32 8 =
      some (List.replicate 8 (List.replicate 32 false), none) := by
  rfl

/-- C2 (amended): `decodePattern` never throws (it is a total function) and
returns the failure sentinel exactly when the first comma component of the
token is empty, the second comma component is missing or empty, or the number
of dot-separated row segments differs from `sampleCount`.  In every other case
it returns a grid and a tempo (possibly NaN); malformed base-36 row segments
and non-numeric tempo segments do not cause failure. -/
theorem c2_decode_failure_characterization (str : List Char) (numSteps sampleCount : ℕ) :
    decodePattern str numSteps sampleCount = none ↔
      ((splitOn ',' str)[0]?.getD [] = [] ∨ (splitOn ',' str)[1]? = none ∨
        (splitOn ',' str)[1]? = some [] ∨
        (splitOn '.' ((splitOn ',' str)[0]?.getD [])).length ≠ sampleCount) := by
  unfold decodePattern
  simp only [List.get?_eq_getElem?, List.getD_eq_getElem?_getD]
  cases hp : (splitOn ',' str)[1]? with
  | none => simp
  | some tempoStr =>
    by_cases h1 : (splitOn ',' str)[0]?.getD [] = []
    · simp [h1, hp]
    · by_cases h2 : tempoStr = []
      · subst h2
        simp [h1, hp]
      · by_cases h3 : (splitOn '.' ((splitOn ',' str)[0]?.getD [])).length = sampleCount
        · simp [h1, h2, h3, hp]
        · simp [h1, h2, h3, hp]

/-! ### Export normalization (`handleExportWav`, peak-normalize step) -/

/-- The peak-scan loop `for i: if (Math.abs(output[i]) > max) max = ...`. -/
def peakAbs (out : List ℚ) : ℚ :=
  out.foldl (fun m x => if |x| > m then |x| else m) 0

/-- The normalization step: divide every sample by the peak when it exceeds 1. -/
def normalizeMix (out : List ℚ) : List ℚ :=
  let m := peakAbs out
  if m > 1 then out.map (fun x => x / m) else out

lemma peakAbs_foldl_ge : ∀ (l : List ℚ) (a : ℚ),
    a ≤ l.foldl (fun m x => if |x| > m then |x| else m) a := by
  intro l
  induction l with
  | nil => intro a; simp
  | cons x l ih =>
    intro a
    simp only [List.foldl_cons]
    have h1 : a ≤ (if |x| > a then |x| else a) := by split <;> linarith
    exact le_trans h1 (ih _)

lemma peakAbs_mem : ∀ (l : List ℚ) (a : ℚ) (x : ℚ), x ∈ l →
    |x| ≤ l.foldl (fun m y => if |y| > m then |y| else m) a := by
  intro l
  induction l with
  | nil => intro a x hx; simp at hx
  | cons y l ih =>
    intro a x hx
    rcases List.mem_cons.mp hx with rfl | hx'
    · simp only [List.foldl_cons]
      calc |x| ≤ (if |x| > a then |x| else a) := by split <;> linarith
      _ ≤ _ := peakAbs_foldl_ge l _
    · simp only [List.foldl_cons]
      exact ih _ x hx'

lemma peakAbs_scale (m : ℚ) (hm : 0 < m) : ∀ (l : List ℚ) (a : ℚ),
    (l.map (fun x => x / m)).foldl (fun acc y => if |y| > acc then |y| else acc) (a / m) =
      (l.foldl (fun acc y => if |y| > acc then |y| else acc) a) / m := by
  intro l
  induction l with
  | nil => intro a; simp
  | cons x l ih =>
    intro a
    simp only [List.map_cons, List.foldl_cons]
    have habs : |x / m| = |x| / m := by
      rw [abs_div, abs_of_pos hm]
    have hcond : (|x / m| > a / m) = (|x| > a) := by
      rw [habs]
      simp only [gt_iff_lt, eq_iff_iff]
      exact div_lt_div_iff_of_pos_right hm
    rw [habs]
    by_cases hc : |x| > a
    · rw [if_pos ((div_lt_div_iff_of_pos_right hm).mpr hc), if_pos hc]
      exact ih _
    · rw [if_neg (fun hlt => hc ((div_lt_div_iff_of_pos_right hm).mp hlt)), if_neg hc]
      exact ih _

/-- C4: after mixing, if the peak absolute sample value exceeds 1 every sample
is divided by that peak, so every resulting sample lies in [-1, 1] and the new
peak is exactly 1; if the peak is at most 1 the buffer is returned unchanged. -/
theorem c4_normalization (out : List ℚ) :
    (peakAbs out ≤ 1 → normalizeMix out = out) ∧
    (1 < peakAbs out →
      (∀ x ∈ normalizeMix out, -1 ≤ x ∧ x ≤ 1) ∧ peakAbs (normalizeMix out) = 1) := by
  constructor
  · intro h
    unfold normalizeMix
    rw [if_neg (not_lt.mpr h)]
  · intro h
    have hm : 0 < peakAbs out := by linarith
    constructor
    · intro x hx
      unfold normalizeMix at hx
      rw [if_pos h] at hx
      obtain ⟨y, hy, rfl⟩ := List.mem_map.mp hx
      have hyb : |y| ≤ peakAbs out := peakAbs_mem out 0 y hy
      have : |y / peakAbs out| ≤ 1 := by
        rw [abs_div, abs_of_pos hm]
        exact (div_le_one hm).mpr hyb
      constructor
      · have := neg_abs_le (y / peakAbs out)
        linarith [abs_nonneg (y / peakAbs out), neg_le_neg ‹|y / peakAbs out| ≤ 1›]
      · linarith [le_abs_self (y / peakAbs out)]
    · unfold normalizeMix
      rw [if_pos h]
      show List.foldl (fun m x => if |x| > m then |x| else m) 0
          (out.map (fun x => x / peakAbs out)) = 1
      calc List.foldl (fun m x => if |x| > m then |x| else m) 0
            (out.map (fun x => x / peakAbs out))
          = List.foldl (fun m x => if |x| > m then |x| else m) (0 / peakAbs out)
            (out.map (fun x => x / peakAbs out)) := by rw [zero_div]
        _ = (List.foldl (fun m x => if |x| > m then |x| else m) 0 out) / peakAbs out :=
            peakAbs_scale (peakAbs out) hm out 0
        _ = peakAbs out / peakAbs out := rfl
        _ = 1 := div_self (ne_of_gt hm)

/-- Witness for `c4_normalization` on the buffer [2, -1/2]. -/
theorem c4_normalization_witness :
    1 < peakAbs [2, -1/2] ∧
      ((∀ x ∈ normalizeMix [2, -1/2], -1 ≤ x ∧ x ≤ 1) ∧
        peakAbs (normalizeMix [2, -1/2]) = 1) :=
  ⟨by norm_num [peakAbs, abs_of_nonneg (show (0:ℚ) ≤ 1/2 by norm_num)],
   (c4_normalization [2, -1/2]).2
     (by norm_num [peakAbs, abs_of_nonneg (show (0:ℚ) ≤ 1/2 by norm_num)])⟩

/-! ### Playback state machine (interval effect, handleStart, handleStop) -/

def DEFAULT_NUM_STEPS : ℕ := 32

/-- The `currentStep` / `isPlaying` pair of the component. -/
structure PlayState where
  cursor : ℕ
  playing : Bool
deriving DecidableEq

inductive PlayAction where
  | start
  | stop
  | tick
deriving DecidableEq

/-- One event of the playback machine: `handleStart` sets the cursor to 0 and
starts; `handleStop` clears the playing flag; a scheduler tick exists only
while playing (the interval is cleared otherwise) and advances the cursor
modulo the step count. -/
def playStep (s : PlayState) : PlayAction → PlayState
  | PlayAction.start => ⟨0, true⟩
  | PlayAction.stop => ⟨s.cursor, false⟩
  | PlayAction.tick =>
    if s.playing then ⟨(s.cursor + 1) % DEFAULT_NUM_STEPS, s.playing⟩ else s

/-- Run a sequence of events. -/
def playRun (s : PlayState) (acts : List PlayAction) : PlayState := acts.foldl playStep s

/-- Initial state from `useState(0)` / `useState(false)`. -/
def initialPlayState : PlayState := ⟨0, false⟩

/-- C5: start always resets the cursor to 0 and sets running; a tick taken
while running advances the cursor to (cursor+1) mod 32; stop clears the
running flag without moving the cursor; a tick while stopped changes nothing;
and along every event sequence from the initial state the cursor stays in
[0, 32). -/
theorem c5_playback :
    (∀ s : PlayState, playStep s PlayAction.start = ⟨0, true⟩) ∧
    (∀ s : PlayState, s.playing = true →
      playStep s PlayAction.tick = ⟨(s.cursor + 1) % 32, true⟩) ∧
    (∀ s : PlayState, playStep s PlayAction.stop = ⟨s.cursor, false⟩) ∧
    (∀ s : PlayState, s.playing = false → playStep s PlayAction.tick = s) ∧
    (∀ acts : List PlayAction, (playRun initialPlayState acts).cursor < 32) := by
  refine ⟨fun s => rfl, ?_, fun s => rfl, ?_, ?_⟩
  · intro s hs
    simp [playStep, hs, DEFAULT_NUM_STEPS]
  · intro s hs
    simp [playStep, hs]
  · have key : ∀ (acts : List PlayAction) (s : PlayState), s.cursor < 32 →
        (playRun s acts).cursor < 32 := by
      intro acts
      induction acts with
      | nil => intro s h; exact h
      | cons a acts ih =>
        intro s h
        have hstep : (playStep s a).cursor < 32 := by
          cases a with
          | start => simp [playStep]
          | stop => simpa [playStep]
          | tick =>
            simp only [playStep]
            split
            · simp only [DEFAULT_NUM_STEPS]
              exact Nat.mod_lt _ (by norm_num)
            · exact h
        simpa [playRun, List.foldl_cons] using ih (playStep s a) hstep
    intro acts
    exact key acts initialPlayState (by norm_num [initialPlayState])

/-- Witness for `c5_playback`: ticking from cursor 31 while running wraps to 0. -/
theorem c5_playback_witness :
    (PlayState.mk 31 true).playing = true ∧
      playStep ⟨31, true⟩ PlayAction.tick = ⟨0, true⟩ := by
  refine ⟨rfl, ?_⟩
  rw [c5_playback.2.1 ⟨31, true⟩ rfl]
  decide

/-! ### Tempo clamping (startTempoChange / stopTempoChange / key handler) -/

def MIN_TEMPO : Int := 60
def MAX_TEMPO : Int := 240

/-- Tempo update run by the press-and-hold repeat interval in
`startTempoChange`. -/
def tempoHoldStep (prev delta : Int) : Int :=
  let next := prev + delta
  if next < MIN_TEMPO then MIN_TEMPO else if next > MAX_TEMPO then MAX_TEMPO else next

/-- Tempo update run by the single-click path of `stopTempoChange`. -/
def tempoClickStep (prev delta : Int) : Int :=
  let next := prev + delta
  if next < MIN_TEMPO then MIN_TEMPO else if next > MAX_TEMPO then MAX_TEMPO else next

/-- Tempo update run by `handleTempoButtonKeyDown` on Space / Enter. -/
def tempoKeyStep (prev delta : Int) : Int :=
  let next := prev + delta
  if next < MIN_TEMPO then MIN_TEMPO else if next > MAX_TEMPO then MAX_TEMPO else next

/-- C6: each of the three tempo-setting operations (hold-repeat, single click,
keyboard), applied with delta = +1 or -1, yields a tempo in [60, 240] for every
previous value, of any magnitude or sign; in particular tempos already in
[60, 240] stay there. -/
theorem c6_tempo_clamp (prev delta : Int) (hd : delta = 1 ∨ delta = -1) :
    (60 ≤ tempoHoldStep prev delta ∧ tempoHoldStep prev delta ≤ 240) ∧
    (60 ≤ tempoClickStep prev delta ∧ tempoClickStep prev delta ≤ 240) ∧
    (60 ≤ tempoKeyStep prev delta ∧ tempoKeyStep prev delta ≤ 240) := by
  simp only [tempoHoldStep, tempoClickStep, tempoKeyStep, MIN_TEMPO, MAX_TEMPO]
  refine ⟨⟨?_, ?_⟩, ⟨?_, ?_⟩, ⟨?_, ?_⟩⟩ <;> split_ifs <;> omega

/-- Witness for `c6_tempo_clamp` at the out-of-range previous value 1000. -/
theorem c6_tempo_clamp_witness :
    ((1 : Int) = 1 ∨ (1 : Int) = -1) ∧
      (60 ≤ tempoHoldStep 1000 1 ∧ tempoHoldStep 1000 1 ≤ 240) :=
  ⟨Or.inl rfl, (c6_tempo_clamp 1000 1 (Or.inl rfl)).1⟩

/-! ### Step toggling (`toggleStep`) -/

/-- The handler `toggleStep(rowIdx, stepIdx)`: copy every row, then negate the one cell. -/
def toggleStep (prev : List (List Bool)) (rowIdx stepIdx : ℕ) : List (List Bool) :=
  prev.set rowIdx
    ((prev.getD rowIdx []).set stepIdx (!(prev.getD rowIdx []).getD stepIdx false))

lemma getD_set_self {α : Type} (l : List α) (i : ℕ) (v d : α) (h : i < l.length) :
    (l.set i v).getD i d = v := by
  rw [List.getD_eq_getElem?_getD, List.getElem?_set, if_pos rfl, if_pos h]
  rfl

lemma getD_set_ne {α : Type} (l : List α) (i j : ℕ) (v d : α) (h : i ≠ j) :
    (l.set i v).getD j d = l.getD j d := by
  rw [List.getD_eq_getElem?_getD, List.getElem?_set, if_neg h, ← List.getD_eq_getElem?_getD]

/-- C9: toggling a cell inside bounds negates exactly that cell, leaves every
other cell unchanged, and preserves the row count and every row's length. -/
theorem c9_toggle_frame (g : List (List Bool)) (r s : ℕ) (hr : r < g.length)
    (hs : s < (g.getD r []).length) :
    (toggleStep g r s).length = g.length ∧
    (∀ i, ((toggleStep g r s).getD i []).length = (g.getD i []).length) ∧
    ((toggleStep g r s).getD r []).getD s false = !((g.getD r []).getD s false) ∧
    (∀ i j, i ≠ r ∨ j ≠ s →
      ((toggleStep g r s).getD i []).getD j false = (g.getD i []).getD j false) := by
  refine ⟨by simp [toggleStep], ?_, ?_, ?_⟩
  · intro i
    by_cases hi : r = i
    · subst hi
      rw [toggleStep, getD_set_self g r _ [] hr]
      simp
    · rw [toggleStep, getD_set_ne g r i _ [] hi]
  · rw [toggleStep, getD_set_self g r _ [] hr, getD_set_self _ s _ false hs]
  · intro i j hij
    by_cases hi : r = i
    · subst hi
      have hj : s ≠ j := by
        rcases hij with h | h
        · exact absurd rfl h
        · exact fun hsj => h hsj.symm
      rw [toggleStep, getD_set_self g r _ [] hr, getD_set_ne _ s j _ false hj]
    · rw [toggleStep, getD_set_ne g r i _ [] hi]

/-- Witness for `c9_toggle_frame` on the grid [[false, true]] at cell (0, 0). -/
theorem c9_toggle_frame_witness :
    ((0 : ℕ) < ([[false, true]] : List (List Bool)).length ∧
      (0 : ℕ) < (([[false, true]] : List (List Bool)).getD 0 []).length) ∧
    ((toggleStep [[false, true]] 0 0).getD 0 []).getD 0 false =
      !((([[false, true]] : List (List Bool)).getD 0 []).getD 0 false) :=
  ⟨⟨by decide, by decide⟩,
    (c9_toggle_frame [[false, true]] 0 0 (by decide) (by decide)).2.2.1⟩

/-! ### PCM conversion (`floatTo16BitPCM`) -/

/-- Truncation toward zero, the integer step of ECMAScript ToInt16. -/
def ratTrunc (q : ℚ) : Int := if 0 ≤ q then ⌊q⌋ else ⌈q⌉

/-- Wrap an integer into the signed 16-bit range (ECMAScript ToInt16). -/
def wrap16 (i : Int) : Int :=
  let u := i % 65536
  if u < 32768 then u else u - 65536

/-- Model of `Math.min` with NaN propagation. -/
def jsMinQ : Option ℚ → Option ℚ → Option ℚ
  | some a, some b => some (min a b)
  | _, _ => none

/-- Model of `Math.max` with NaN propagation. -/
def jsMaxQ : Option ℚ → Option ℚ → Option ℚ
  | some a, some b => some (max a b)
  | _, _ => none

/-- Per-sample body of `floatTo16BitPCM`:
`s = Math.max(-1, Math.min(1, x))`, then the 16-bit value stored by
`setInt16(offset, s < 0 ? s * 0x8000 : s * 0x7FFF)`. -/
def pcmVal (x : Option ℚ) : Int :=
  match jsMaxQ (some (-1)) (jsMinQ (some 1) x) with
  | none => 0
  | some s => wrap16 (ratTrunc (if s < 0 then s * 32768 else s * 32767))

lemma wrap16_id (i : Int) (h1 : -32768 ≤ i) (h2 : i ≤ 32767) : wrap16 i = i := by
  simp only [wrap16]
  split <;> omega

/-- C10: every 16-bit value written by `floatTo16BitPCM` lies in
[-32768, 32767] — for every input sample, including values outside [-1, 1]
and NaN — with 1.0 mapping to 32767, -1.0 to -32768, and NaN to 0; no write
overflows the 16-bit range. -/
theorem c10_pcm_safety :
    (∀ x : Option ℚ, -32768 ≤ pcmVal x ∧ pcmVal x ≤ 32767) ∧
    pcmVal (some 1) = 32767 ∧ pcmVal (some (-1)) = -32768 ∧ pcmVal none = 0 := by
  have hval : ∀ q : ℚ, pcmVal (some q) =
      wrap16 (ratTrunc (if max (-1 : ℚ) (min 1 q) < 0
        then max (-1 : ℚ) (min 1 q) * 32768 else max (-1 : ℚ) (min 1 q) * 32767)) :=
    fun q => rfl
  have hrange : ∀ q : ℚ, -32768 ≤ pcmVal (some q) ∧ pcmVal (some q) ≤ 32767 := by
    intro q
    rw [hval q]
    set s : ℚ := max (-1) (min 1 q) with hs
    have hs1 : -1 ≤ s := le_max_left _ _
    have hs2 : s ≤ 1 := max_le (by norm_num) (min_le_left _ _)
    by_cases hneg : s < 0
    · rw [if_pos hneg]
      have hv0 : s * 32768 < 0 := mul_neg_of_neg_of_pos hneg (by norm_num)
      have hv1 : (-32768 : ℚ) ≤ s * 32768 := by nlinarith
      have htr : ratTrunc (s * 32768) = ⌈s * 32768⌉ := by
        simp only [ratTrunc, if_neg (not_le.mpr hv0)]
      rw [htr]
      have h1 : (-32768 : ℤ) ≤ ⌈s * 32768⌉ := by
        have := Int.lt_ceil.mpr (show ((-32769 : ℤ) : ℚ) < s * 32768 by push_cast; linarith)
        omega
      have h2 : ⌈s * 32768⌉ ≤ 0 := Int.ceil_le.mpr (by push_cast; linarith)
      rw [wrap16_id _ h1 (by omega)]
      exact ⟨h1, by omega⟩
    · rw [if_neg hneg]
      push_neg at hneg
      have hv1 : (0 : ℚ) ≤ s * 32767 := mul_nonneg hneg (by norm_num)
      have hv2 : s * 32767 ≤ 32767 := by nlinarith
      have htr : ratTrunc (s * 32767) = ⌊s * 32767⌋ := by
        simp only [ratTrunc, if_pos hv1]
      rw [htr]
      have h1 : (0 : ℤ) ≤ ⌊s * 32767⌋ := Int.floor_nonneg.mpr hv1
      have h2 : ⌊s * 32767⌋ ≤ 32767 := by
        have := Int.floor_lt.mpr (show s * 32767 < ((32768 : ℤ) : ℚ) by push_cast; linarith)
        omega
      rw [wrap16_id _ (by omega) h2]
      exact ⟨by omega, h2⟩
  refine ⟨?_, ?_, ?_, rfl⟩
  · intro x
    cases x with
    | none =>
      constructor <;> norm_num [pcmVal, jsMinQ, jsMaxQ]
    | some q => exact hrange q
  · rw [hval 1]
    have hs : max (-1 : ℚ) (min 1 1) = 1 := by norm_num
    rw [hs, if_neg (by norm_num), one_mul]
    have htr : ratTrunc (32767 : ℚ) = 32767 := by
      simp only [ratTrunc, if_pos (by norm_num : (0:ℚ) ≤ 32767)]
      rw [show (32767 : ℚ) = ((32767 : ℤ) : ℚ) by norm_num, Int.floor_intCast]
    rw [htr, wrap16_id _ (by norm_num) (by norm_num)]
  · rw [hval (-1)]
    have hs : max (-1 : ℚ) (min 1 (-1)) = -1 := by norm_num
    rw [hs, if_pos (by norm_num)]
    have hprod : (-1 : ℚ) * 32768 = -32768 := by norm_num
    rw [hprod]
    have htr : ratTrunc (-32768 : ℚ) = -32768 := by
      simp only [ratTrunc, if_neg (by norm_num : ¬ (0:ℚ) ≤ -32768)]
      rw [show (-32768 : ℚ) = ((-32768 : ℤ) : ℚ) by norm_num, Int.ceil_intCast]
    rw [htr, wrap16_id _ (by norm_num) (by norm_num)]

/-! ### WAV container (`encodeWAV`) -/

/-- Model of `DataView.setUint8` on the byte map of the ArrayBuffer. -/
def setU8 (f : ℕ → ℕ) (off v : ℕ) : ℕ → ℕ := fun j => if j = off then v % 256 else f j

/-- Model of `DataView.setUint16(offset, v, true)` (little endian). -/
def setU16 (f : ℕ → ℕ) (off v : ℕ) : ℕ → ℕ :=
  setU8 (setU8 f off v) (off + 1) (v / 256)

/-- Model of `DataView.setUint32(offset, v, true)` (little endian). -/
def setU32 (f : ℕ → ℕ) (off v : ℕ) : ℕ → ℕ :=
  setU8 (setU8 (setU8 (setU8 f off v) (off + 1) (v / 256)) (off + 2) (v / 65536))
    (off + 3) (v / 16777216)

/-- The helper `writeString`: one byte per ASCII character. -/
def writeStr (f : ℕ → ℕ) (off : ℕ) : List Char → (ℕ → ℕ)
  | [] => f
  | c :: cs => writeStr (setU8 f off c.toNat) (off + 1) cs

/-- Model of `DataView.setInt16(offset, v, true)`: two's-complement bytes, little
endian. -/
def setI16 (f : ℕ → ℕ) (off : ℕ) (v : Int) : ℕ → ℕ :=
  setU16 f off (v % 65536).toNat

/-- The write loop of `floatTo16BitPCM`. -/
def floatTo16BitPCM (f : ℕ → ℕ) (off : ℕ) : List (Option ℚ) → (ℕ → ℕ)
  | [] => f
  | x :: xs => floatTo16BitPCM (setI16 f off (pcmVal x)) (off + 2) xs

/-- The header writes of `encodeWAV` (offsets 0 to 43), applied to the
freshly allocated all-zero buffer, as a byte map. -/
def wavHeaderFun (n sampleRate : ℕ) : ℕ → ℕ :=
  let f0 : ℕ → ℕ := fun _ => 0
  let f1 := writeStr f0 0 ['R', 'I', 'F', 'F']
  let f2 := setU32 f1 4 (36 + n * 2)
  let f3 := writeStr f2 8 ['W', 'A', 'V', 'E']
  let f4 := writeStr f3 12 ['f', 'm', 't', ' ']
  let f5 := setU32 f4 16 16
  let f6 := setU16 f5 20 1
  let f7 := setU16 f6 22 1
  let f8 := setU32 f7 24 sampleRate
  let f9 := setU32 f8 28 (sampleRate * 2)
  let f10 := setU16 f9 32 2
  let f11 := setU16 f10 34 16
  let f12 := writeStr f11 36 ['d', 'a', 't', 'a']
  setU32 f12 40 (n * 2)

/-- The function `encodeWAV(samples, sampleRate)` as the byte map of the
`44 + samples.length * 2` byte buffer: header writes, then the PCM data
written by `floatTo16BitPCM(view, 44, samples)`. -/
def encodeWAVBytes (samples : List (Option ℚ)) (sampleRate : ℕ) : ℕ → ℕ :=
  floatTo16BitPCM (wavHeaderFun samples.length sampleRate) 44 samples

/-- The bytes of the blob produced by `encodeWAV`. -/
def encodeWAV (samples : List (Option ℚ)) (sampleRate : ℕ) : List ℕ :=
  (List.range (44 + samples.length * 2)).map (encodeWAVBytes samples sampleRate)

/-- Little-endian byte pair of a 16-bit field (spec layout). -/
def u16LE (v : ℕ) : List ℕ := [v % 256, v / 256 % 256]

/-- Little-endian byte quadruple of a 32-bit field (spec layout). -/
def u32LE (v : ℕ) : List ℕ := [v % 256, v / 256 % 256, v / 65536 % 256, v / 16777216 % 256]

/-- The canonical 44-byte mono 16-bit PCM WAV header, as described by the
spec: RIFF / chunk size / WAVE / fmt chunk / data chunk. -/
def wavHeader (n r : ℕ) : List ℕ :=
  [82, 73, 70, 70] ++ u32LE (36 + 2 * n) ++ [87, 65, 86, 69] ++
    [102, 109, 116, 32] ++ u32LE 16 ++ u16LE 1 ++ u16LE 1 ++ u32LE r ++
    u32LE (r * 2) ++ u16LE 2 ++ u16LE 16 ++ [100, 97, 116, 97] ++ u32LE (2 * n)

lemma floatTo16BitPCM_low : ∀ (xs : List (Option ℚ)) (f : ℕ → ℕ) (off j : ℕ), j < off →
    floatTo16BitPCM f off xs j = f j := by
  intro xs
  induction xs with
  | nil => intro f off j _; rfl
  | cons x xs ih =>
    intro f off j hj
    show floatTo16BitPCM (setI16 f off (pcmVal x)) (off + 2) xs j = f j
    rw [ih _ (off + 2) j (by omega)]
    simp only [setI16, setU16, setU8]
    rw [if_neg (by omega : ¬ j = off + 1), if_neg (by omega : ¬ j = off)]

lemma wavHeaderFun_spec (n r : ℕ) : (List.range 44).map (wavHeaderFun n r) = wavHeader n r := by
  rw [show List.range 44 =
    [0, 1, 2, 3, 4, 5, 6, 7, 8, 9, 10, 11, 12, 13, 14, 15, 16, 17, 18, 19, 20, 21,
     22, 23, 24, 25, 26, 27, 28, 29, 30, 31, 32, 33, 34, 35, 36, 37, 38, 39, 40, 41,
     42, 43] from by decide]
  simp only [wavHeaderFun, writeStr, setU32, setU16, setU8, wavHeader, u16LE, u32LE,
    List.map_cons, List.map_nil]
  rw [show n * 2 = 2 * n from Nat.mul_comm n 2]
  norm_num
  decide

/-- C7: for every sample buffer of n samples and every sample rate r,
`encodeWAV` produces exactly 44 + 2n bytes whose first 44 bytes are the
standard mono 16-bit PCM WAV header: ASCII RIFF at 0, little-endian chunk size
36 + 2n at 4, WAVE at 8, fmt-space at 12 with chunk length 16, audio format 1,
channel count 1, sample rate r, byte rate 2r, block align 2, bits per sample
16, and data at 36 with data length 2n. -/
theorem c7_wav_layout (samples : List (Option ℚ)) (sampleRate : ℕ) :
    (encodeWAV samples sampleRate).length = 44 + 2 * samples.length ∧
    (encodeWAV samples sampleRate).take 44 = wavHeader samples.length sampleRate := by
  constructor
  · simp only [encodeWAV, List.length_map, List.length_range]
    omega
  · have htake : (encodeWAV samples sampleRate).take 44 =
        (List.range 44).map (encodeWAVBytes samples sampleRate) := by
      rw [encodeWAV, ← List.map_take, List.take_range, Nat.min_eq_left (by omega)]
    rw [htake]
    have hmapc : (List.range 44).map (encodeWAVBytes samples sampleRate) =
        (List.range 44).map (wavHeaderFun samples.length sampleRate) :=
      List.map_congr_left (fun j hj =>
        floatTo16BitPCM_low samples _ 44 j (List.mem_range.mp hj))
    rw [hmapc]
    exact wavHeaderFun_spec samples.length sampleRate

/-! ### Sample upload (`handleFileChange`) -/

/-- One entry of the instrument list. -/
structure SampleRow where
  name : List Char
  label : List Char
  isUserSample : Bool
deriving DecidableEq

/-- The component state read or written by `handleFileChange`. -/
structure UploadState where
  samples : List SampleRow
  selected : List (List Bool)
  userSampleUrl : Option (List Char)
  uploadError : Option (List Char)
deriving DecidableEq

/-- A file delivered by the hidden file input. -/
structure JsFile where
  name : List Char
  mimeType : List Char
deriving DecidableEq

/-- The label regex `name.replace(/\.[^/.]+$/, "")`: drop a final dot followed
by one or more characters none of which is a dot or a slash. -/
def stripExt (name : List Char) : List Char :=
  let rev := name.reverse
  let ext := rev.takeWhile (fun c => !(c = '.' || c = '/'))
  match rev.drop ext.length with
  | '.' :: _ => if ext = [] then name else name.take (name.length - ext.length - 1)
  | _ => name

/-- The handler `handleFileChange`: clear the error message, return if no file, reject
non-MP3 MIME types with an inline error and no other change, otherwise revoke
and replace the user sample URL (`freshUrl` stands for the object URL the
browser mints) and append a sample row plus an all-false selection row. -/
def handleFileChange (st : UploadState) (file : Option JsFile) (freshUrl : List Char) :
    UploadState :=
  let st1 := { st with uploadError := none }
  match file with
  | none => st1
  | some f =>
    if f.mimeType ≠ "audio/mp3".toList ∧ f.mimeType ≠ "audio/mpeg".toList then
      { st1 with uploadError := some "Only MP3 files are supported.".toList }
    else
      { st1 with
          userSampleUrl := some freshUrl,
          samples := st1.samples ++ [⟨f.name, stripExt f.name, true⟩],
          selected := st1.selected ++ [List.replicate DEFAULT_NUM_STEPS false] }

/-- C8: for every file whose MIME type is neither audio/mp3 nor audio/mpeg,
`handleFileChange` sets the inline error message and mutates nothing else: the
sample list, the selection grid and the user-sample URL are exactly as before. -/
theorem c8_upload_reject (st : UploadState) (f : JsFile) (freshUrl : List Char)
    (h1 : f.mimeType ≠ "audio/mp3".toList) (h2 : f.mimeType ≠ "audio/mpeg".toList) :
    handleFileChange st (some f) freshUrl =
      { st with uploadError := some "Only MP3 files are supported.".toList } := by
  simp only [handleFileChange]
  rw [if_pos ⟨h1, h2⟩]

/-- Witness for `c8_upload_reject` on a WAV-typed file. -/
theorem c8_upload_reject_witness :
    ((JsFile.mk "x.wav".toList "audio/wav".toList).mimeType ≠ "audio/mp3".toList ∧
      (JsFile.mk "x.wav".toList "audio/wav".toList).mimeType ≠ "audio/mpeg".toList) ∧
    handleFileChange ⟨[⟨"snare.mp3".toList, "Snare".toList, false⟩], [[true]], none, none⟩
        (some ⟨"x.wav".toList, "audio/wav".toList⟩) "blob:u".toList =
      ⟨[⟨"snare.mp3".toList, "Snare".toList, false⟩], [[true]], none,
        some "Only MP3 files are supported.".toList⟩ :=
  ⟨⟨by decide, by decide⟩,
    c8_upload_reject ⟨[⟨"snare.mp3".toList, "Snare".toList, false⟩], [[true]], none, none⟩
      ⟨"x.wav".toList, "audio/wav".toList⟩ "blob:u".toList (by decide) (by decide)⟩

/-! ### Export output length (`handleExportWav`) -/

/-- The quantity `stepDuration = (60 / tempo) / 4` (16th note, seconds). -/
def stepDurationQ (tempo : ℚ) : ℚ := (60 / tempo) / 4

/-- Buffer loading of `handleExportWav`: a row's sample is decoded only when at
least one of its steps is selected; `lens` gives each row's decoded length in
samples. -/
def loadBuffers (selected : List (List Bool)) (lens : List ℕ) : List (Option ℕ) :=
  (List.range lens.length).map (fun i =>
    if (selected.getD i []).any (fun b => b) then some (lens.getD i 0) else none)

/-- The `maxEndSample` double loop of `handleExportWav`: over every row with a
buffer and every selected step, track the largest
`floor(step * stepDuration * sampleRate) + buf.length`. -/
def maxEndSampleLoop (selected : List (List Bool)) (bufs : List (Option ℕ)) (dur : ℚ) : ℕ :=
  (List.range bufs.length).foldl
    (fun m row =>
      match bufs.getD row none with
      | none => m
      | some len =>
        (List.range 32).foldl
          (fun m2 step =>
            if (selected.getD row []).getD step false then
              if Nat.floor ((step : ℚ) * dur * 44100) + len > m2 then
                Nat.floor ((step : ℚ) * dur * 44100) + len
              else m2
            else m2) m)
    0

/-- The quantity `totalSamples = Math.max(Math.ceil(totalDuration * sampleRate),
maxEndSample)` with `totalDuration = stepDuration * 32`. -/
def exportTotalSamples (selected : List (List Bool)) (lens : List ℕ) (tempo : ℚ) : ℕ :=
  max (Nat.ceil (stepDurationQ tempo * 32 * 44100))
    (maxEndSampleLoop selected (loadBuffers selected lens) (stepDurationQ tempo))

/-- All selected (row, step) pairs, as the spec describes them. -/
def specSelPairs (selected : List (List Bool)) : List (ℕ × ℕ) :=
  (List.range selected.length).flatMap (fun r =>
    ((List.range 32).filter (fun s => (selected.getD r []).getD s false)).map (fun s => (r, s)))

/-- The spec's output length bound: the maximum over all selected (row, step)
of `floor(step * stepDuration * sampleRate) + sourceBuffer.length`. -/
def specMaxEnd (selected : List (List Bool)) (lens : List ℕ) (dur : ℚ) : ℕ :=
  (specSelPairs selected).foldr
    (fun p m => max (Nat.floor ((p.2 : ℚ) * dur * 44100) + lens.getD p.1 0) m) 0

/-- Maximum of a list of naturals. -/
def listMax (l : List ℕ) : ℕ := l.foldr max 0

lemma listMax_append (l1 l2 : List ℕ) : listMax (l1 ++ l2) = max (listMax l1) (listMax l2) := by
  induction l1 with
  | nil => simp [listMax]
  | cons x l ih =>
    simp only [listMax, List.cons_append, List.foldr_cons] at ih ⊢
    omega

lemma foldl_max_eq {α : Type} (g : α → ℕ) : ∀ (l : List α) (a : ℕ),
    l.foldl (fun m x => max m (g x)) a = max a (listMax (l.map g)) := by
  intro l
  induction l with
  | nil => intro a; simp [listMax]
  | cons x l ih =>
    intro a
    simp only [List.foldl_cons, List.map_cons, listMax, List.foldr_cons, ih]
    simp only [listMax] at ih ⊢
    omega

lemma foldr_max_map {α : Type} (g : α → ℕ) (l : List α) :
    l.foldr (fun x m => max (g x) m) 0 = listMax (l.map g) := by
  induction l with
  | nil => rfl
  | cons x l ih => simp only [List.foldr_cons, List.map_cons, listMax, ih]

lemma listMax_flatMap {α β : Type} (f : α → List β) (g : β → ℕ) (l : List α) :
    listMax ((l.flatMap f).map g) = listMax (l.map (fun x => listMax ((f x).map g))) := by
  induction l with
  | nil => rfl
  | cons x l ih =>
    simp only [List.flatMap_cons, List.map_append, List.map_cons]
    rw [listMax_append]
    simp only [listMax, List.foldr_cons] at ih ⊢
    omega

lemma inner_loop_eq (sel : ℕ → Bool) (e : ℕ → ℕ) : ∀ (l : List ℕ) (a : ℕ),
    l.foldl (fun m s => if sel s then (if e s > m then e s else m) else m) a =
      max a (listMax ((l.filter sel).map e)) := by
  intro l
  induction l with
  | nil => intro a; simp [listMax]
  | cons s l ih =>
    intro a
    simp only [List.foldl_cons]
    by_cases hs : sel s
    · rw [if_pos hs, List.filter_cons_of_pos hs]
      simp only [List.map_cons, listMax, List.foldr_cons]
      rw [ih]
      simp only [listMax]
      split_ifs <;> omega
    · rw [if_neg hs, List.filter_cons_of_neg (by simpa using hs), ih]

lemma getD_map_range {α : Type} (g : ℕ → α) (n i : ℕ) (d : α) (h : i < n) :
    ((List.range n).map g).getD i d = g i := by
  rw [List.getD_eq_getElem _ _ (by simpa using h)]
  simp

lemma maxEnd_eq_spec (selected : List (List Bool)) (lens : List ℕ) (dur : ℚ)
    (hlen : lens.length = selected.length) (hrows : ∀ row ∈ selected, row.length = 32) :
    maxEndSampleLoop selected (loadBuffers selected lens) dur = specMaxEnd selected lens dur := by
  have hbufs_len : (loadBuffers selected lens).length = selected.length := by
    simp [loadBuffers, hlen]
  have hbody : ∀ (m row : ℕ), row ∈ List.range (loadBuffers selected lens).length →
      (match (loadBuffers selected lens).getD row none with
        | none => m
        | some len =>
          (List.range 32).foldl
            (fun m2 step =>
              if (selected.getD row []).getD step false then
                if Nat.floor ((step : ℚ) * dur * 44100) + len > m2 then
                  Nat.floor ((step : ℚ) * dur * 44100) + len
                else m2
              else m2) m) =
      max m (listMax (((List.range 32).filter
        (fun s => (selected.getD row []).getD s false)).map
          (fun (s : ℕ) => Nat.floor ((s : ℚ) * dur * 44100) + lens.getD row 0))) := by
    intro m row hrow
    rw [List.mem_range, hbufs_len] at hrow
    have hget : (loadBuffers selected lens).getD row none =
        (if (selected.getD row []).any (fun b => b) then some (lens.getD row 0) else none) := by
      rw [loadBuffers]
      exact getD_map_range _ _ row none (by omega)
    by_cases hany : (selected.getD row []).any (fun b => b)
    · rw [hget, if_pos hany]
      exact inner_loop_eq (fun s => (selected.getD row []).getD s false)
        (fun (s : ℕ) => Nat.floor ((s : ℚ) * dur * 44100) + lens.getD row 0) (List.range 32) m
    · rw [hget, if_neg hany]
      have hfalse : ∀ s : ℕ, (selected.getD row []).getD s false = false := by
        intro s
        by_cases hslen : s < (selected.getD row []).length
        · rw [List.getD_eq_getElem _ _ hslen]
          by_contra hc
          rw [Bool.not_eq_false] at hc
          exact hany (List.any_eq_true.mpr ⟨_, List.getElem_mem hslen, hc⟩)
        · exact List.getD_eq_default _ _ (by omega)
      have hfilter : (List.range 32).filter
          (fun s => (selected.getD row []).getD s false) = [] := by
        rw [List.filter_eq_nil_iff]
        intro s _
        simp only [hfalse]
        simp
      rw [hfilter]
      simp [listMax]
  calc maxEndSampleLoop selected (loadBuffers selected lens) dur
      = (List.range (loadBuffers selected lens).length).foldl
          (fun m row => max m (listMax (((List.range 32).filter
            (fun s => (selected.getD row []).getD s false)).map
              (fun (s : ℕ) => Nat.floor ((s : ℚ) * dur * 44100) + lens.getD row 0)))) 0 := by
        rw [maxEndSampleLoop]
        exact List.foldl_ext _ _ 0 hbody
    _ = max 0 (listMax ((List.range selected.length).map
          (fun row => listMax (((List.range 32).filter
            (fun s => (selected.getD row []).getD s false)).map
              (fun (s : ℕ) => Nat.floor ((s : ℚ) * dur * 44100) + lens.getD row 0))))) := by
        rw [hbufs_len, foldl_max_eq]
    _ = listMax ((List.range selected.length).map
          (fun row => listMax (((List.range 32).filter
            (fun s => (selected.getD row []).getD s false)).map
              (fun (s : ℕ) => Nat.floor ((s : ℚ) * dur * 44100) + lens.getD row 0)))) := by
        omega
    _ = specMaxEnd selected lens dur := by
        rw [specMaxEnd, foldr_max_map, specSelPairs, listMax_flatMap]
        congr 1
        apply List.map_congr_left
        intro r _
        rw [List.map_map]
        rfl

/-- C3 (counterexample): in the claim's own particular example — only step 31
of one row selected, a 0.5 s (22050-sample) buffer, tempo 120 — the code
produces 192937 samples (floor(31·0.125·44100) + 22050), not the
ceil((31·0.125 + 0.5)·44100) = 192938 samples asserted by the claim; and the
fallback minimum of the code applies in every case, not only when no step is
selected. -/
theorem c3_counterexample :
    exportTotalSamples [List.replicate 31 false ++ [true]] [22050] 120 = 192937 ∧
    Nat.ceil (((31 : ℚ) * 0.125 + 0.5) * 44100) = 192938 ∧ (192937 : ℕ) ≠ 192938 := by
  refine ⟨?_, ?_, by decide⟩
  · have hdur : stepDurationQ 120 = 1 / 8 := by norm_num [stepDurationQ]
    rw [exportTotalSamples, hdur]
    have hceil : Nat.ceil ((1 / 8 : ℚ) * 32 * 44100) = 176400 := by norm_num
    have hbufs : loadBuffers [List.replicate 31 false ++ [true]] [22050] = [some 22050] := by
      decide
    rw [hceil, hbufs, maxEndSampleLoop]
    rw [show List.range ([some (22050 : ℕ)].length) = [0] from rfl]
    simp only [List.foldl_cons, List.foldl_nil]
    rw [show ([some (22050 : ℕ)].getD 0 none) = some 22050 from rfl]
    show (max 176400 ((List.range 32).foldl
      (fun m2 step =>
        if (([List.replicate 31 false ++ [true]] : List (List Bool)).getD 0 []).getD step false
        then
          if Nat.floor ((step : ℚ) * (1 / 8) * 44100) + 22050 > m2 then
            Nat.floor ((step : ℚ) * (1 / 8) * 44100) + 22050
          else m2
        else m2) 0)) = 192937
    rw [inner_loop_eq (fun s => (([List.replicate 31 false ++ [true]] :
        List (List Bool)).getD 0 []).getD s false)
      (fun (s : ℕ) => Nat.floor ((s : ℚ) * (1 / 8) * 44100) + 22050) (List.range 32) 0]
    rw [show (List.range 32).filter (fun s => (([List.replicate 31 false ++ [true]] :
        List (List Bool)).getD 0 []).getD s false) = [31] from by decide]
    simp only [List.map_cons, List.map_nil, listMax, List.foldr_cons, List.foldr_nil]
    rw [show (((31 : ℕ) : ℚ) * (1 / 8) * 44100) = 170887.5 by norm_num]
    rw [show Nat.floor (170887.5 : ℚ) = 170887 from by rw [Nat.floor_eq_iff] <;> norm_num]
    omega
  · rw [show (((31 : ℚ) * 0.125 + 0.5) * 44100) = 192937.5 by norm_num]
    rw [Nat.ceil_eq_iff (by norm_num)] <;> norm_num

/-- C3 (amended): for every grid of rows × 32 steps, matching per-row buffer
lengths, and tempo in [60, 240], the exported sample count equals the maximum
of the fallback minimum ceil(32 · stepDuration · sampleRate) — which applies
in every case, not only when no step is selected — and the maximum over all
selected (row, step) of floor(step · stepDuration · sampleRate) +
sourceBuffer.length.  In the claim's particular example the result is
floor(31·0.125·44100) + 22050 = 192937 samples. -/
theorem c3_export_length (selected : List (List Bool)) (lens : List ℕ) (tempo : ℚ)
    (hlen : lens.length = selected.length) (hrows : ∀ row ∈ selected, row.length = 32)
    (ht1 : 60 ≤ tempo) (ht2 : tempo ≤ 240) :
    exportTotalSamples selected lens tempo =
      max (Nat.ceil (stepDurationQ tempo * 32 * 44100))
        (specMaxEnd selected lens (stepDurationQ tempo)) := by
  rw [exportTotalSamples, maxEnd_eq_spec selected lens _ hlen hrows]

/-- Witness for `c3_export_length` at the step-31 example. -/
theorem c3_export_length_witness :
    ([22050] : List ℕ).length = ([List.replicate 31 false ++ [true]] :
      List (List Bool)).length ∧
    exportTotalSamples [List.replicate 31 false ++ [true]] [22050] 120 =
      max (Nat.ceil (stepDurationQ 120 * 32 * 44100))
        (specMaxEnd [List.replicate 31 false ++ [true]] [22050] (stepDurationQ 120)) :=
  ⟨rfl, c3_export_length [List.replicate 31 false ++ [true]] [22050] 120 rfl (by decide)
    (by norm_num) (by norm_num)⟩
